import Mathlib

/-!
Verification of the selection-list engine of the `cutr` utility
(src/cutr/src/main.rs): parsing of comma-separated position
specifications into half-open zero-based ranges, and extraction of
fields, bytes and characters from input records.

Strings from the Rust source are modelled as `List Char` (the character
sequence of the `&str`); bytes as `Nat` values below 256; machine
integers (`usize`) as `Nat` with the explicit bound `usizeMax`.
Fallible parsing is modelled with `Except`.
-/

/-- `usize::MAX` on the 64-bit target platform. -/
def usizeMax : Nat := 2 ^ 64 - 1

/-- `std::ops::Range<usize>`: half-open interval `[start, stop)`.
(`end` is a Lean keyword, so the upper bound is called `stop`.) -/
structure Rng where
  start : Nat
  stop : Nat
deriving DecidableEq, Repr

/-- The two error shapes produced by the parser (`anyhow` messages in the
source): `illegal list value: "<token>"` and
`First number in range (<low>) must be lower than second number (<high>)`. -/
inductive CutError where
  | illegalValue (token : List Char)
  | rangeOrder (low high : Nat)
deriving DecidableEq, Repr

instance {ε α : Type} [DecidableEq ε] [DecidableEq α] : DecidableEq (Except ε α) := fun x y =>
  match x, y with
  | .ok a, .ok b =>
    if h : a = b then .isTrue (h ▸ rfl) else .isFalse (fun he => h (Except.ok.inj he))
  | .error a, .error b =>
    if h : a = b then .isTrue (h ▸ rfl) else .isFalse (fun he => h (Except.error.inj he))
  | .ok _, .error _ => .isFalse (fun he => Except.noConfusion he)
  | .error _, .ok _ => .isFalse (fun he => Except.noConfusion he)

/-- Decimal rendering, fueled so that the kernel can evaluate it; any
fuel above the value itself yields the digits (see `natToDigitsAux_fuel`). -/
def natToDigitsAux : Nat → Nat → List Char
  | 0, _ => []
  | fuel + 1, n =>
    if n < 10 then [Char.ofNat (48 + n)]
    else natToDigitsAux fuel (n / 10) ++ [Char.ofNat (48 + n % 10)]

/-- Decimal rendering of a natural number, most significant digit first. -/
def natToDigits (n : Nat) : List Char :=
  natToDigitsAux (n + 1) n

/-- The error message text attached to each error (the `anyhow!` format
strings in the source). -/
def errorMessage : CutError → List Char
  | .illegalValue token =>
      "illegal list value: \"".data ++ token ++ "\"".data
  | .rangeOrder low high =>
      "First number in range (".data ++ natToDigits low
        ++ ") must be lower than second number (".data ++ natToDigits high
        ++ ")".data

/-- An ASCII digit string: nonempty, all of `[0-9]`. This is the shape
accepted by the integer parser (`usize`/`NonZeroUsize` `FromStr` only
accepts ASCII digits), not the regex character class — see
`isNdDigits` for the regexes' Unicode `\d`. -/
def isDigits (t : List Char) : Bool :=
  !t.isEmpty && t.all (fun c => c.isDigit)

/-- The non-ASCII ranges of the Unicode decimal-digit general category
`Nd` (Unicode 15.0), as scalar-value intervals; together with the
ASCII digits these form the class matched by the regex crate's
Unicode-default `\d` (that is, `\p{Nd}`). -/
def ndOtherRanges : List (Nat × Nat) :=
  [ (0x660, 0x669), (0x6F0, 0x6F9), (0x7C0, 0x7C9), (0x966, 0x96F),
    (0x9E6, 0x9EF), (0xA66, 0xA6F), (0xAE6, 0xAEF), (0xB66, 0xB6F),
    (0xBE6, 0xBEF), (0xC66, 0xC6F), (0xCE6, 0xCEF), (0xD66, 0xD6F),
    (0xDE6, 0xDEF), (0xE50, 0xE59), (0xED0, 0xED9), (0xF20, 0xF29),
    (0x1040, 0x1049), (0x1090, 0x1099), (0x17E0, 0x17E9), (0x1810, 0x1819),
    (0x1946, 0x194F), (0x19D0, 0x19D9), (0x1A80, 0x1A89), (0x1A90, 0x1A99),
    (0x1B50, 0x1B59), (0x1BB0, 0x1BB9), (0x1C40, 0x1C49), (0x1C50, 0x1C59),
    (0xA620, 0xA629), (0xA8D0, 0xA8D9), (0xA900, 0xA909), (0xA9D0, 0xA9D9),
    (0xA9F0, 0xA9F9), (0xAA50, 0xAA59), (0xABF0, 0xABF9), (0xFF10, 0xFF19),
    (0x104A0, 0x104A9), (0x10D30, 0x10D39), (0x11066, 0x1106F), (0x110F0, 0x110F9),
    (0x11136, 0x1113F), (0x111D0, 0x111D9), (0x112F0, 0x112F9), (0x11450, 0x11459),
    (0x114D0, 0x114D9), (0x11650, 0x11659), (0x116C0, 0x116C9), (0x11730, 0x11739),
    (0x118E0, 0x118E9), (0x11950, 0x11959), (0x11C50, 0x11C59), (0x11D50, 0x11D59),
    (0x11DA0, 0x11DA9), (0x11F50, 0x11F59), (0x16A60, 0x16A69), (0x16AC0, 0x16AC9),
    (0x16B50, 0x16B59), (0x1D7CE, 0x1D7FF), (0x1E140, 0x1E149), (0x1E2F0, 0x1E2F9),
    (0x1E4F0, 0x1E4F9), (0x1E950, 0x1E959), (0x1FBF0, 0x1FBF9) ]

/-- `\d` in the source's regexes (Unicode mode on by default): an ASCII
digit or any other Unicode decimal digit. -/
def isNdDigit (c : Char) : Bool :=
  c.isDigit || ndOtherRanges.any (fun p => p.1 ≤ c.toNat && c.toNat ≤ p.2)

/-- A token matching the regex `\d+`: nonempty, all Unicode decimal
digits. -/
def isNdDigits (t : List Char) : Bool :=
  !t.isEmpty && t.all (fun c => isNdDigit c)

/-- Numeric value of a digit string (leading zeros permitted). -/
def digitsToNat (t : List Char) : Nat :=
  t.foldl (fun a c => 10 * a + (c.toNat - 48)) 0

/-- `str::parse::<NonZeroUsize>`: an optional leading `+` followed by
decimal digits, whose value must be nonzero and fit in `usize`. -/
def parseNonZeroUsize (t : List Char) : Option Nat :=
  let digits := if t.head? = some '+' then t.tail else t
  if isDigits digits then
    let v := digitsToNat digits
    if v = 0 ∨ usizeMax < v then none else some v
  else none

/-- `parse_index`: rejects a leading `+`, parses as `NonZeroUsize`, and
returns the value decremented to a zero-based offset. -/
def parse_index (t : List Char) : Except CutError Nat :=
  if t.head? = some '+' then .error (.illegalValue t)
  else
    match parseNonZeroUsize t with
    | some v => .ok (v - 1)
    | none => .error (.illegalValue t)

/-- `parse_single_digit_position`: a token matching `^(\d+)$` becomes the
range `[n-1, n)` via `parse_index`. -/
def parse_single_digit_position (t : List Char) : Except CutError Rng :=
  if isNdDigits t then
    match parse_index t with
    | .ok n => .ok ⟨n, n + 1⟩
    | .error e => .error e
  else .error (.illegalValue t)

/-- `str::split(c)`: splits at every occurrence of `c`, keeping empty
pieces (the empty input yields one empty piece). -/
def splitOnChar (c : Char) : List Char → List (List Char)
  | [] => [[]]
  | x :: xs =>
    match splitOnChar c xs with
    | [] => [[]]
    | t :: ts => if x = c then [] :: t :: ts else (x :: t) :: ts

/-- The body of `parse_hyphenated_position` once the regex
`^(\d+)-(\d+)$` has match-captured the two halves `d1` and `d2` of the
token `t`: both one-based indices are parsed, and the first must be
strictly lower than the second, giving the range `[n1-1, n2)`. -/
def parse_hyphen_halves (t d1 d2 : List Char) : Except CutError Rng :=
  if isNdDigits d1 && isNdDigits d2 then
    match parse_index d1 with
    | .error e => .error e
    | .ok n1 =>
      match parse_index d2 with
      | .error e => .error e
      | .ok n2 =>
        if n1 ≥ n2 then .error (.rangeOrder (n1 + 1) (n2 + 1))
        else .ok ⟨n1, n2 + 1⟩
  else .error (.illegalValue t)

/-- `parse_hyphenated_position`: a token matching `^(\d+)-(\d+)$` is
handed to `parse_hyphen_halves`; any other shape is an illegal value. -/
def parse_hyphenated_position (t : List Char) : Except CutError Rng :=
  match splitOnChar '-' t with
  | [d1, d2] => parse_hyphen_halves t d1 d2
  | _ => .error (.illegalValue t)

/-- The per-token closure inside `parse_position`: try the single-digit
grammar first, and on any failure fall back to the hyphenated grammar,
whose error is the one reported. -/
def parse_position_token (t : List Char) : Except CutError Rng :=
  match parse_single_digit_position t with
  | .ok r => .ok r
  | .error _ => parse_hyphenated_position t

/-- `Iterator::collect::<Result<Vec<_>, _>>`: left-to-right, stopping at
the first error. -/
def collectResults : List (List Char) → Except CutError (List Rng)
  | [] => .ok []
  | t :: ts =>
    match parse_position_token t with
    | .error e => .error e
    | .ok r =>
      match collectResults ts with
      | .error e => .error e
      | .ok rs => .ok (r :: rs)

/-- `parse_position`: split the specification on `,` and parse each token. -/
def parse_position (s : List Char) : Except CutError (List Rng) :=
  collectResults (splitOnChar ',' s)

/-- A `Range<usize>` used as an iterator: `start, start+1, ..., stop-1`
(empty when `start ≥ stop`). -/
def rangeIndices (r : Rng) : List Nat :=
  List.range' r.start (r.stop - r.start)

/-- `extract_fields_from_record`: for each range in list order, the
record's fields at each in-bounds index of the range, in ascending
index order (`StringRecord::get` returns `None` out of bounds). -/
def extract_fields_from_record (record : List String) (position_list : List Rng) :
    List String :=
  position_list.flatMap (fun r => (rangeIndices r).filterMap (fun i => record.get? i))

/-- UTF-8 encoding of one Unicode scalar value (`str::as_bytes`). -/
def utf8EncodeChar (c : Char) : List Nat :=
  let n := c.toNat
  if n < 0x80 then [n]
  else if n < 0x800 then [0xC0 + n / 64, 0x80 + n % 64]
  else if n < 0x10000 then
    [0xE0 + n / 4096, 0x80 + n / 64 % 64, 0x80 + n % 64]
  else
    [0xF0 + n / 262144, 0x80 + n / 4096 % 64, 0x80 + n / 64 % 64, 0x80 + n % 64]

/-- UTF-8 encoding of a string's characters. -/
def utf8Encode (l : List Char) : List Nat :=
  l.flatMap utf8EncodeChar

/-- The Unicode replacement character U+FFFD. -/
def replacementChar : Char := Char.ofNat 0xFFFD

/-- A UTF-8 continuation byte (`0x80..=0xBF`). -/
def isCont (b : Nat) : Bool := 0x80 ≤ b && b < 0xC0

/-- Admissible second byte of a multi-byte UTF-8 sequence, given its
leading byte (the restricted ranges exclude overlong forms, surrogates
and values above U+10FFFF, as in `core::str::validations`). -/
def utf8Valid2 (b0 b1 : Nat) : Bool :=
  if b0 = 0xE0 then 0xA0 ≤ b1 && b1 ≤ 0xBF
  else if b0 = 0xED then 0x80 ≤ b1 && b1 ≤ 0x9F
  else if b0 = 0xF0 then 0x90 ≤ b1 && b1 ≤ 0xBF
  else if b0 = 0xF4 then 0x80 ≤ b1 && b1 ≤ 0x8F
  else isCont b1

/-- One step of lossy UTF-8 decoding at byte `b0` followed by `rest`:
yields the decoded character (or U+FFFD) and how many bytes were
consumed (the length of the maximal valid prefix of an invalid
sequence, at least 1 — Rust's substitution of maximal subparts). -/
def utf8Step (b0 : Nat) (rest : List Nat) : Char × Nat :=
  if b0 < 0x80 then (Char.ofNat b0, 1)
  else if 0xC2 ≤ b0 && b0 ≤ 0xDF then
    match rest with
    | b1 :: _ =>
      if isCont b1 then (Char.ofNat ((b0 - 0xC0) * 64 + (b1 - 0x80)), 2)
      else (replacementChar, 1)
    | [] => (replacementChar, 1)
  else if 0xE0 ≤ b0 && b0 ≤ 0xEF then
    match rest with
    | b1 :: rest1 =>
      if utf8Valid2 b0 b1 then
        match rest1 with
        | b2 :: _ =>
          if isCont b2 then
            (Char.ofNat ((b0 - 0xE0) * 4096 + (b1 - 0x80) * 64 + (b2 - 0x80)), 3)
          else (replacementChar, 2)
        | [] => (replacementChar, 2)
      else (replacementChar, 1)
    | [] => (replacementChar, 1)
  else if 0xF0 ≤ b0 && b0 ≤ 0xF4 then
    match rest with
    | b1 :: rest1 =>
      if utf8Valid2 b0 b1 then
        match rest1 with
        | b2 :: rest2 =>
          if isCont b2 then
            match rest2 with
            | b3 :: _ =>
              if isCont b3 then
                (Char.ofNat
                  ((b0 - 0xF0) * 262144 + (b1 - 0x80) * 4096
                    + (b2 - 0x80) * 64 + (b3 - 0x80)), 4)
              else (replacementChar, 3)
            | [] => (replacementChar, 3)
          else (replacementChar, 2)
        | [] => (replacementChar, 2)
      else (replacementChar, 1)
    | [] => (replacementChar, 1)
  else (replacementChar, 1)

/-- Fueled driver for lossy decoding; fuel at least the byte count is
always enough since each step consumes at least one byte. -/
def utf8LossyAux : Nat → List Nat → List Char
  | 0, _ => []
  | fuel + 1, bs =>
    match bs with
    | [] => []
    | b0 :: rest =>
      (utf8Step b0 rest).1
        :: utf8LossyAux fuel (rest.drop ((utf8Step b0 rest).2 - 1))

/-- `String::from_utf8_lossy`: decode, substituting U+FFFD for each
maximal subpart of an ill-formed subsequence. -/
def utf8Lossy (bs : List Nat) : List Char :=
  utf8LossyAux bs.length bs

/-- `extract_bytes_from_line`: select the bytes at the listed offsets
(range by range, ascending within a range, out-of-bounds skipped), then
decode the collected bytes lossily. -/
def extract_bytes_from_line (line : List Char) (position_list : List Rng) : String :=
  let bytes := utf8Encode line
  let selected :=
    position_list.flatMap (fun r => (rangeIndices r).filterMap (fun i => bytes.get? i))
  String.mk (utf8Lossy selected)

/-- `extract_chars_from_line`: select the characters (Unicode scalar
values) at the listed codepoint indices. -/
def extract_chars_from_line (line : List Char) (position_list : List Rng) : String :=
  String.mk
    (position_list.flatMap (fun r => (rangeIndices r).filterMap (fun i => line.get? i)))

/-- Canonical one-based re-rendering of a parsed range `[start, stop)`:
the one-based span `start+1 .. stop`, written as a bare index when it
has a single element and as a hyphenated token otherwise. -/
def renderRange (r : Rng) : List Char :=
  if r.stop = r.start + 1 then natToDigits (r.start + 1)
  else natToDigits (r.start + 1) ++ '-' :: natToDigits r.stop

/-- Join tokens with commas (inverse of splitting on a comma). -/
def joinCommas : List (List Char) → List Char
  | [] => []
  | [t] => t
  | t :: t2 :: ts => t ++ ',' :: joinCommas (t2 :: ts)

/-- Canonical re-rendering of a whole PositionList. -/
def renderPositionList (pl : List Rng) : List Char :=
  joinCommas (pl.map renderRange)

/-! ### Basic facts about digits and characters -/

theorem char_toNat_digit (d : Nat) (h : d < 10) :
    (Char.ofNat (48 + d)).toNat = 48 + d := by
  interval_cases d <;> decide

theorem char_isDigit_digit (d : Nat) (h : d < 10) :
    (Char.ofNat (48 + d)).isDigit = true := by
  interval_cases d <;> decide

theorem digit_ne_hyphen {c : Char} (h : c.isDigit = true) : c ≠ '-' := by
  intro he; rw [he] at h; exact absurd h (by decide)

theorem digit_ne_comma {c : Char} (h : c.isDigit = true) : c ≠ ',' := by
  intro he; rw [he] at h; exact absurd h (by decide)

theorem digit_ne_plus {c : Char} (h : c.isDigit = true) : c ≠ '+' := by
  intro he; rw [he] at h; exact absurd h (by decide)

theorem isDigits_mem {t : List Char} (h : isDigits t = true) :
    ∀ c ∈ t, c.isDigit = true := by
  have := (Bool.and_eq_true _ _).mp h
  exact fun c hc => List.all_eq_true.mp this.2 c hc

theorem isDigits_ne_nil {t : List Char} (h : isDigits t = true) : t ≠ [] := by
  intro he; subst he; exact absurd h (by decide)

theorem isDigits_not_mem_hyphen {t : List Char} (h : isDigits t = true) : '-' ∉ t :=
  fun hm => absurd rfl (digit_ne_hyphen (isDigits_mem h _ hm))

theorem isDigits_not_mem_comma {t : List Char} (h : isDigits t = true) : ',' ∉ t :=
  fun hm => absurd rfl (digit_ne_comma (isDigits_mem h _ hm))

theorem isDigits_append_hyphen (t1 t2 : List Char) :
    isDigits (t1 ++ '-' :: t2) = false := by
  unfold isDigits
  rw [Bool.and_eq_false_iff]
  right
  rw [Bool.eq_false_iff]
  intro hall
  have := List.all_eq_true.mp hall '-' (by simp)
  exact absurd this (by decide)

theorem isDigit_isNd {c : Char} (h : c.isDigit = true) : isNdDigit c = true := by
  rw [isNdDigit, h, Bool.true_or]

theorem isNdDigits_mem {t : List Char} (h : isNdDigits t = true) :
    ∀ c ∈ t, isNdDigit c = true := by
  have := (Bool.and_eq_true _ _).mp h
  exact fun c hc => List.all_eq_true.mp this.2 c hc

theorem isNdDigits_ne_nil {t : List Char} (h : isNdDigits t = true) : t ≠ [] := by
  intro he; subst he; exact absurd h (by decide)

theorem isDigits_isNd {t : List Char} (h : isDigits t = true) :
    isNdDigits t = true := by
  rw [isNdDigits, Bool.and_eq_true]
  constructor
  · cases ht : t with
    | nil => exact absurd ht (isDigits_ne_nil h)
    | cons c cs => rfl
  · exact List.all_eq_true.mpr
      (fun c hc => isDigit_isNd (isDigits_mem h c hc))

theorem ndDigit_ne_hyphen {c : Char} (h : isNdDigit c = true) : c ≠ '-' := by
  intro he; rw [he] at h; exact absurd h (by decide)

theorem ndDigit_ne_comma {c : Char} (h : isNdDigit c = true) : c ≠ ',' := by
  intro he; rw [he] at h; exact absurd h (by decide)

theorem ndDigit_ne_plus {c : Char} (h : isNdDigit c = true) : c ≠ '+' := by
  intro he; rw [he] at h; exact absurd h (by decide)

theorem isNdDigits_not_mem_hyphen {t : List Char} (h : isNdDigits t = true) :
    '-' ∉ t :=
  fun hm => absurd rfl (ndDigit_ne_hyphen (isNdDigits_mem h _ hm))

theorem isNdDigits_not_mem_comma {t : List Char} (h : isNdDigits t = true) :
    ',' ∉ t :=
  fun hm => absurd rfl (ndDigit_ne_comma (isNdDigits_mem h _ hm))

theorem isNdDigits_append_hyphen (t1 t2 : List Char) :
    isNdDigits (t1 ++ '-' :: t2) = false := by
  unfold isNdDigits
  rw [Bool.and_eq_false_iff]
  right
  rw [Bool.eq_false_iff]
  intro hall
  have := List.all_eq_true.mp hall '-' (by simp)
  exact absurd this (by decide)

theorem head_ne_plus_nd {t : List Char} (h : isNdDigits t = true) :
    t.head? ≠ some '+' := by
  cases t with
  | nil => simp
  | cons c cs =>
    simp only [List.head?]
    intro he
    have hc : c = '+' := by injection he
    exact ndDigit_ne_plus (isNdDigits_mem h c (List.mem_cons_self c cs)) hc

/-! ### `splitOnChar` -/

theorem splitOnChar_ne_nil (c : Char) (t : List Char) : splitOnChar c t ≠ [] := by
  cases t with
  | nil => simp [splitOnChar]
  | cons x xs =>
    simp only [splitOnChar]
    cases splitOnChar c xs with
    | nil => simp
    | cons u us =>
      by_cases h : x = c <;> simp [h]

theorem splitOnChar_not_mem {c : Char} {t : List Char} (h : c ∉ t) :
    splitOnChar c t = [t] := by
  induction t with
  | nil => rfl
  | cons x xs ih =>
    have hx : x ≠ c := fun he => h (he ▸ List.mem_cons_self x xs)
    have hxs : c ∉ xs := fun hm => h (List.mem_cons_of_mem _ hm)
    simp only [splitOnChar, ih hxs]
    simp [hx]

theorem splitOnChar_append {c : Char} {t1 : List Char} (rest : List Char)
    (h : c ∉ t1) : splitOnChar c (t1 ++ c :: rest) = t1 :: splitOnChar c rest := by
  induction t1 with
  | nil =>
    simp only [List.nil_append, splitOnChar]
    cases hs : splitOnChar c rest with
    | nil => exact absurd hs (splitOnChar_ne_nil c rest)
    | cons u us => simp
  | cons x xs ih =>
    have hx : x ≠ c := fun he => h (he ▸ List.mem_cons_self x xs)
    have hxs : c ∉ xs := fun hm => h (List.mem_cons_of_mem _ hm)
    rw [List.cons_append]
    simp only [splitOnChar]
    rw [ih hxs]
    simp [hx]

/-! ### Decimal rendering round-trips with `digitsToNat` -/

theorem digitsToNat_append_last (l : List Char) (ch : Char) :
    digitsToNat (l ++ [ch]) = 10 * digitsToNat l + (ch.toNat - 48) := by
  unfold digitsToNat
  rw [List.foldl_append]
  rfl

theorem natToDigitsAux_fuel (fuel fuel' n : Nat) (h1 : n < fuel) (h2 : n < fuel') :
    natToDigitsAux fuel n = natToDigitsAux fuel' n := by
  induction fuel generalizing fuel' n with
  | zero => omega
  | succ fuel ih =>
    cases fuel' with
    | zero => omega
    | succ fuel' =>
      simp only [natToDigitsAux]
      by_cases h : n < 10
      · simp [h]
      · have hd : n / 10 < n := Nat.div_lt_self (by omega) (by omega)
        simp only [h, if_false]
        rw [ih fuel' (n / 10) (by omega) (by omega)]

theorem natToDigits_lt {n : Nat} (h : n < 10) :
    natToDigits n = [Char.ofNat (48 + n)] := by
  simp [natToDigits, natToDigitsAux, h]

theorem natToDigits_ge {n : Nat} (h : 10 ≤ n) :
    natToDigits n = natToDigits (n / 10) ++ [Char.ofNat (48 + n % 10)] := by
  have hd : n / 10 < n := Nat.div_lt_self (by omega) (by omega)
  conv_lhs => rw [natToDigits]
  rw [natToDigitsAux, if_neg (Nat.not_lt.mpr h),
    natToDigitsAux_fuel n (n / 10 + 1) (n / 10) (by omega) (by omega)]
  rfl

theorem digitsToNat_natToDigits (n : Nat) : digitsToNat (natToDigits n) = n := by
  induction n using Nat.strong_induction_on with
  | _ n ih =>
    by_cases h : n < 10
    · rw [natToDigits_lt h]
      show digitsToNat ([] ++ [Char.ofNat (48 + n)]) = n
      rw [digitsToNat_append_last, char_toNat_digit n h]
      simp [digitsToNat]
    · have hd : n / 10 < n := Nat.div_lt_self (by omega) (by omega)
      rw [natToDigits_ge (by omega), digitsToNat_append_last, ih _ hd,
        char_toNat_digit (n % 10) (Nat.mod_lt _ (by omega))]
      omega

theorem natToDigits_mem (n : Nat) : ∀ c ∈ natToDigits n, c.isDigit = true := by
  induction n using Nat.strong_induction_on with
  | _ n ih =>
    by_cases h : n < 10
    · rw [natToDigits_lt h]
      intro c hc
      rw [List.mem_singleton] at hc
      exact hc ▸ char_isDigit_digit n h
    · have hd : n / 10 < n := Nat.div_lt_self (by omega) (by omega)
      rw [natToDigits_ge (by omega)]
      intro c hc
      rcases List.mem_append.mp hc with hc | hc
      · exact ih _ hd c hc
      · rw [List.mem_singleton] at hc
        exact hc ▸ char_isDigit_digit (n % 10) (Nat.mod_lt _ (by omega))

theorem natToDigits_ne_nil (n : Nat) : natToDigits n ≠ [] := by
  by_cases h : n < 10
  · rw [natToDigits_lt h]; simp
  · rw [natToDigits_ge (by omega)]; simp

theorem isDigits_natToDigits (n : Nat) : isDigits (natToDigits n) = true := by
  unfold isDigits
  rw [Bool.and_eq_true]
  constructor
  · cases hn : natToDigits n with
    | nil => exact absurd hn (natToDigits_ne_nil n)
    | cons c cs => rfl
  · exact List.all_eq_true.mpr (natToDigits_mem n)

/-! ### Characterizing `parse_index` -/

theorem head_ne_plus {t : List Char} (h : isDigits t = true) :
    t.head? ≠ some '+' := by
  cases t with
  | nil => simp
  | cons c cs =>
    simp only [List.head?]
    intro he
    have hc : c = '+' := by injection he
    exact digit_ne_plus (isDigits_mem h c (List.mem_cons_self c cs)) hc

theorem parseNonZeroUsize_digits {t : List Char} (h : isDigits t = true)
    (h1 : 1 ≤ digitsToNat t) (h2 : digitsToNat t ≤ usizeMax) :
    parseNonZeroUsize t = some (digitsToNat t) := by
  simp only [parseNonZeroUsize, if_neg (head_ne_plus h), h, if_true]
  rw [if_neg (by omega)]

theorem parse_index_digits {t : List Char} (h : isDigits t = true)
    (h1 : 1 ≤ digitsToNat t) (h2 : digitsToNat t ≤ usizeMax) :
    parse_index t = .ok (digitsToNat t - 1) := by
  rw [parse_index, if_neg (head_ne_plus h), parseNonZeroUsize_digits h h1 h2]

theorem parse_index_zero {t : List Char} (h : isDigits t = true)
    (h0 : digitsToNat t = 0) : parse_index t = .error (.illegalValue t) := by
  rw [parse_index, if_neg (head_ne_plus h)]
  have : parseNonZeroUsize t = none := by
    simp only [parseNonZeroUsize, if_neg (head_ne_plus h), h, if_true]
    rw [if_pos (Or.inl h0)]
  rw [this]

theorem parse_index_overflow {t : List Char} (h : isDigits t = true)
    (h0 : usizeMax < digitsToNat t) : parse_index t = .error (.illegalValue t) := by
  rw [parse_index, if_neg (head_ne_plus h)]
  have : parseNonZeroUsize t = none := by
    simp only [parseNonZeroUsize, if_neg (head_ne_plus h), h, if_true]
    rw [if_pos (Or.inr h0)]
  rw [this]

theorem parse_index_ok {t : List Char} {n : Nat} (h : parse_index t = .ok n) :
    isDigits t = true ∧ digitsToNat t = n + 1 ∧ n + 1 ≤ usizeMax := by
  rw [parse_index] at h
  by_cases hp : t.head? = some '+'
  · rw [if_pos hp] at h; exact absurd h (by simp)
  · rw [if_neg hp] at h
    rcases hv : parseNonZeroUsize t with _ | v
    · rw [hv] at h; exact absurd h (by simp)
    · rw [hv] at h
      have hn : v - 1 = n := Except.ok.inj h
      simp only [parseNonZeroUsize, if_neg hp] at hv
      by_cases hd : isDigits t = true
      · rw [if_pos hd] at hv
        by_cases hz : digitsToNat t = 0 ∨ usizeMax < digitsToNat t
        · rw [if_pos hz] at hv; exact absurd hv (by simp)
        · rw [if_neg hz] at hv
          have hveq : digitsToNat t = v := Option.some.inj hv
          refine ⟨hd, ?_, ?_⟩ <;> omega
      · rw [if_neg hd] at hv
        exact absurd hv (by simp)

/-! ### Token-level behavior of the parser -/

theorem parse_single_ok {t : List Char} (h : isDigits t = true)
    (h1 : 1 ≤ digitsToNat t) (h2 : digitsToNat t ≤ usizeMax) :
    parse_single_digit_position t = .ok ⟨digitsToNat t - 1, digitsToNat t⟩ := by
  rw [parse_single_digit_position, if_pos (isDigits_isNd h),
    parse_index_digits h h1 h2]
  show Except.ok (⟨digitsToNat t - 1, digitsToNat t - 1 + 1⟩ : Rng)
    = Except.ok (⟨digitsToNat t - 1, digitsToNat t⟩ : Rng)
  have he : digitsToNat t - 1 + 1 = digitsToNat t := by omega
  rw [he]

theorem token_single_ok {t : List Char} (h : isDigits t = true)
    (h1 : 1 ≤ digitsToNat t) (h2 : digitsToNat t ≤ usizeMax) :
    parse_position_token t = .ok ⟨digitsToNat t - 1, digitsToNat t⟩ := by
  rw [parse_position_token, parse_single_ok h h1 h2]

theorem token_digits_err {t : List Char} (h : isDigits t = true)
    (hz : digitsToNat t = 0 ∨ usizeMax < digitsToNat t) :
    parse_position_token t = .error (.illegalValue t) := by
  have hidx : parse_index t = .error (.illegalValue t) := by
    rcases hz with hz | hz
    · exact parse_index_zero h hz
    · exact parse_index_overflow h hz
  rw [parse_position_token, parse_single_digit_position,
    if_pos (isDigits_isNd h), hidx]
  show parse_hyphenated_position t = .error (.illegalValue t)
  rw [parse_hyphenated_position, splitOnChar_not_mem (isDigits_not_mem_hyphen h)]

theorem splitOnChar_hyphen_token {t1 t2 : List Char} (h1 : isNdDigits t1 = true)
    (h2 : isNdDigits t2 = true) :
    splitOnChar '-' (t1 ++ '-' :: t2) = [t1, t2] := by
  rw [splitOnChar_append t2 (isNdDigits_not_mem_hyphen h1),
    splitOnChar_not_mem (isNdDigits_not_mem_hyphen h2)]

theorem comma_not_mem_hyphen_token {t1 t2 : List Char} (h1 : isNdDigits t1 = true)
    (h2 : isNdDigits t2 = true) : ',' ∉ t1 ++ '-' :: t2 := by
  intro hm
  rcases List.mem_append.mp hm with hm | hm
  · exact isNdDigits_not_mem_comma h1 hm
  · rcases List.mem_cons.mp hm with hm | hm
    · exact absurd hm (by decide)
    · exact isNdDigits_not_mem_comma h2 hm

theorem token_hyphen_core (t1 t2 : List Char) :
    parse_position_token (t1 ++ '-' :: t2)
      = parse_hyphenated_position (t1 ++ '-' :: t2) := by
  rw [parse_position_token, parse_single_digit_position,
    if_neg (by rw [isNdDigits_append_hyphen]; exact Bool.false_ne_true)]

theorem parse_hyphenated_digits {t1 t2 : List Char} (h1 : isNdDigits t1 = true)
    (h2 : isNdDigits t2 = true) :
    parse_hyphenated_position (t1 ++ '-' :: t2) =
      match parse_index t1 with
      | .error e => .error e
      | .ok n1 =>
        match parse_index t2 with
        | .error e => .error e
        | .ok n2 =>
          if n1 ≥ n2 then .error (.rangeOrder (n1 + 1) (n2 + 1))
          else .ok ⟨n1, n2 + 1⟩ := by
  rw [parse_hyphenated_position, splitOnChar_hyphen_token h1 h2]
  show parse_hyphen_halves (t1 ++ '-' :: t2) t1 t2 = _
  rw [parse_hyphen_halves, if_pos (by rw [h1, h2]; rfl)]

theorem token_hyphen_ok {t1 t2 : List Char} (h1 : isDigits t1 = true)
    (h2 : isDigits t2 = true) (hv1 : 1 ≤ digitsToNat t1)
    (hlt : digitsToNat t1 < digitsToNat t2) (hv2 : digitsToNat t2 ≤ usizeMax) :
    parse_position_token (t1 ++ '-' :: t2)
      = .ok ⟨digitsToNat t1 - 1, digitsToNat t2⟩ := by
  rw [token_hyphen_core t1 t2, parse_hyphenated_digits (isDigits_isNd h1) (isDigits_isNd h2),
    parse_index_digits h1 hv1 (by omega), parse_index_digits h2 (by omega) hv2]
  show (if digitsToNat t1 - 1 ≥ digitsToNat t2 - 1 then _ else _) = _
  rw [if_neg (by omega)]
  show Except.ok (⟨digitsToNat t1 - 1, digitsToNat t2 - 1 + 1⟩ : Rng) = _
  have he : digitsToNat t2 - 1 + 1 = digitsToNat t2 := by omega
  rw [he]

theorem token_hyphen_order {t1 t2 : List Char} (h1 : isDigits t1 = true)
    (h2 : isDigits t2 = true) (hv2 : 1 ≤ digitsToNat t2)
    (hge : digitsToNat t2 ≤ digitsToNat t1) (hv1 : digitsToNat t1 ≤ usizeMax) :
    parse_position_token (t1 ++ '-' :: t2)
      = .error (.rangeOrder (digitsToNat t1) (digitsToNat t2)) := by
  rw [token_hyphen_core t1 t2, parse_hyphenated_digits (isDigits_isNd h1) (isDigits_isNd h2),
    parse_index_digits h1 (by omega) hv1, parse_index_digits h2 hv2 (by omega)]
  show (if digitsToNat t1 - 1 ≥ digitsToNat t2 - 1 then _ else _) = _
  rw [if_pos (by omega)]
  show Except.error (CutError.rangeOrder (digitsToNat t1 - 1 + 1) (digitsToNat t2 - 1 + 1)) = _
  have he1 : digitsToNat t1 - 1 + 1 = digitsToNat t1 := by omega
  have he2 : digitsToNat t2 - 1 + 1 = digitsToNat t2 := by omega
  rw [he1, he2]

theorem token_hyphen_zero1 {t1 t2 : List Char} (h1 : isDigits t1 = true)
    (h2 : isDigits t2 = true) (hz : digitsToNat t1 = 0) :
    parse_position_token (t1 ++ '-' :: t2) = .error (.illegalValue t1) := by
  rw [token_hyphen_core t1 t2, parse_hyphenated_digits (isDigits_isNd h1) (isDigits_isNd h2), parse_index_zero h1 hz]

theorem token_hyphen_zero2 {t1 t2 : List Char} (h1 : isDigits t1 = true)
    (h2 : isDigits t2 = true) (hv1 : 1 ≤ digitsToNat t1)
    (hm1 : digitsToNat t1 ≤ usizeMax) (hz : digitsToNat t2 = 0) :
    parse_position_token (t1 ++ '-' :: t2) = .error (.illegalValue t2) := by
  rw [token_hyphen_core t1 t2, parse_hyphenated_digits (isDigits_isNd h1) (isDigits_isNd h2),
    parse_index_digits h1 hv1 hm1, parse_index_zero h2 hz]

theorem parse_index_not_ascii {t : List Char} (hnd : isNdDigits t = true)
    (ha : isDigits t = false) : parse_index t = .error (.illegalValue t) := by
  rw [parse_index, if_neg (head_ne_plus_nd hnd)]
  have hz : parseNonZeroUsize t = none := by
    simp only [parseNonZeroUsize, if_neg (head_ne_plus_nd hnd)]
    rw [if_neg (by rw [ha]; exact Bool.false_ne_true)]
  rw [hz]

theorem token_nd_not_ascii {t : List Char} (hnd : isNdDigits t = true)
    (ha : isDigits t = false) :
    parse_position_token t = .error (.illegalValue t) := by
  rw [parse_position_token, parse_single_digit_position, if_pos hnd,
    parse_index_not_ascii hnd ha]
  show parse_hyphenated_position t = .error (.illegalValue t)
  rw [parse_hyphenated_position,
    splitOnChar_not_mem (isNdDigits_not_mem_hyphen hnd)]

theorem token_hyphen_not_ascii1 {t1 t2 : List Char} (h1 : isNdDigits t1 = true)
    (h2 : isNdDigits t2 = true) (ha : isDigits t1 = false) :
    parse_position_token (t1 ++ '-' :: t2) = .error (.illegalValue t1) := by
  rw [token_hyphen_core t1 t2, parse_hyphenated_digits h1 h2,
    parse_index_not_ascii h1 ha]

theorem token_hyphen_not_ascii2 {t1 t2 : List Char} (h1 : isDigits t1 = true)
    (h2 : isNdDigits t2 = true) (hv1 : 1 ≤ digitsToNat t1)
    (hm1 : digitsToNat t1 ≤ usizeMax) (ha : isDigits t2 = false) :
    parse_position_token (t1 ++ '-' :: t2) = .error (.illegalValue t2) := by
  rw [token_hyphen_core t1 t2, parse_hyphenated_digits (isDigits_isNd h1) h2,
    parse_index_digits h1 hv1 hm1, parse_index_not_ascii h2 ha]

/-- A token matching neither grammar is rejected with the token itself. -/
theorem token_no_grammar {t : List Char} (hd : isNdDigits t = false)
    (hh : ∀ d1 d2, splitOnChar '-' t = [d1, d2] →
      (isNdDigits d1 && isNdDigits d2) = false) :
    parse_position_token t = .error (.illegalValue t) := by
  rw [parse_position_token, parse_single_digit_position,
    if_neg (by rw [hd]; exact Bool.false_ne_true)]
  show parse_hyphenated_position t = .error (.illegalValue t)
  rw [parse_hyphenated_position]
  rcases hs : splitOnChar '-' t with _ | ⟨d1, rest⟩
  · rfl
  · rcases rest with _ | ⟨d2, rest2⟩
    · rfl
    · rcases rest2 with _ | _
      · have hf := hh d1 d2 hs
        show parse_hyphen_halves t d1 d2 = _
        rw [parse_hyphen_halves, if_neg (by rw [hf]; exact Bool.false_ne_true)]
      · rfl

/-! ### `collectResults` and whole-specification parsing -/

theorem parse_position_one_token {t : List Char} (hc : ',' ∉ t) :
    parse_position t =
      match parse_position_token t with
      | .ok r => .ok [r]
      | .error e => .error e := by
  rw [parse_position, splitOnChar_not_mem hc]
  cases h : parse_position_token t <;> simp [collectResults, h]

theorem collectResults_error {pre : List (List Char)} (t : List Char)
    (post : List (List Char)) {e : CutError}
    (hok : ∀ u ∈ pre, ∃ r, parse_position_token u = .ok r)
    (he : parse_position_token t = .error e) :
    collectResults (pre ++ t :: post) = .error e := by
  induction pre with
  | nil =>
    rw [List.nil_append, collectResults, he]
  | cons u us ih =>
    obtain ⟨r, hr⟩ := hok u (List.mem_cons_self u us)
    have h2 : ∀ w ∈ us, ∃ r, parse_position_token w = .ok r :=
      fun w hw => hok w (List.mem_cons_of_mem _ hw)
    rw [List.cons_append, collectResults, hr, ih h2]

theorem collectResults_ok_forall₂ {ts : List (List Char)} {rs : List Rng}
    (h : collectResults ts = .ok rs) :
    List.Forall₂ (fun u r => parse_position_token u = .ok r) ts rs := by
  induction ts generalizing rs with
  | nil =>
    have : rs = [] := (Except.ok.inj h).symm
    subst this
    exact List.Forall₂.nil
  | cons t ts ih =>
    rw [collectResults] at h
    cases hu : parse_position_token t with
    | error e => rw [hu] at h; exact absurd h (by simp)
    | ok r =>
      rw [hu] at h
      cases hc : collectResults ts with
      | error e => rw [hc] at h; exact absurd h (by simp)
      | ok rs' =>
        rw [hc] at h
        have : r :: rs' = rs := Except.ok.inj h
        subst this
        exact List.Forall₂.cons hu (ih hc)

theorem collectResults_of_forall₂ {ts : List (List Char)} {rs : List Rng}
    (h : List.Forall₂ (fun u r => parse_position_token u = .ok r) ts rs) :
    collectResults ts = .ok rs := by
  induction h with
  | nil => rfl
  | cons hu _ ih =>
    rw [collectResults, hu, ih]

/-! ### The shared selection algorithm equals contiguous slicing -/

theorem filterMap_get_range {α : Type} (xs : List α) (s n : Nat) :
    (List.range' s n).filterMap (fun i => xs.get? i) = (xs.drop s).take n := by
  induction n generalizing s with
  | zero => simp
  | succ n ih =>
    rw [List.range'_succ s n 1, List.filterMap_cons]
    by_cases h : s < xs.length
    · rw [List.get?_eq_getElem?, List.getElem?_eq_getElem h]
      rw [List.drop_eq_getElem_cons h, List.take_cons (Nat.succ_pos n)]
      simp only [Nat.succ_sub_one]
      rw [ih (s + 1)]
    · have hle : xs.length ≤ s := Nat.not_lt.mp h
      rw [List.get?_eq_none.mpr hle]
      rw [List.drop_eq_nil_of_le hle, List.take_nil]
      rw [ih (s + 1), List.drop_eq_nil_of_le (by omega), List.take_nil]

/-! ### Ranges produced by a successful parse, and their re-rendering -/

theorem token_ok_valid {t : List Char} {r : Rng}
    (h : parse_position_token t = .ok r) :
    r.start < r.stop ∧ r.stop ≤ usizeMax := by
  rw [parse_position_token] at h
  cases hs : parse_single_digit_position t with
  | ok r' =>
    rw [hs] at h
    have hrr : r' = r := Except.ok.inj h
    subst hrr
    rw [parse_single_digit_position] at hs
    by_cases hd : isNdDigits t = true
    · rw [if_pos hd] at hs
      cases hi : parse_index t with
      | ok n =>
        rw [hi] at hs
        have hb := parse_index_ok hi
        have hr : (⟨n, n + 1⟩ : Rng) = r' := Except.ok.inj hs
        subst hr
        constructor
        · show n < n + 1
          omega
        · exact hb.2.2
      | error e =>
        rw [hi] at hs
        exact absurd hs (by simp)
    · rw [if_neg hd] at hs
      exact absurd hs (by simp)
  | error e =>
    rw [hs] at h
    have h2 : parse_hyphenated_position t = .ok r := h
    rw [parse_hyphenated_position] at h2
    rcases hsp : splitOnChar '-' t with _ | ⟨d1, _ | ⟨d2, _ | ⟨d3, rest⟩⟩⟩
    all_goals rw [hsp] at h2
    · exact absurd h2 (by simp)
    · exact absurd h2 (by simp)
    · have h3 : parse_hyphen_halves t d1 d2 = .ok r := h2
      rw [parse_hyphen_halves] at h3
      by_cases hdd : (isNdDigits d1 && isNdDigits d2) = true
      · rw [if_pos hdd] at h3
        cases hi1 : parse_index d1 with
        | error e1 =>
          rw [hi1] at h3
          exact absurd h3 (by simp)
        | ok n1 =>
          rw [hi1] at h3
          cases hi2 : parse_index d2 with
          | error e2 =>
            rw [hi2] at h3
            exact absurd h3 (by simp)
          | ok n2 =>
            rw [hi2] at h3
            have h4 : (if n1 ≥ n2 then Except.error (CutError.rangeOrder (n1 + 1) (n2 + 1))
                else Except.ok (⟨n1, n2 + 1⟩ : Rng)) = Except.ok r := h3
            by_cases hge : n1 ≥ n2
            · rw [if_pos hge] at h4
              exact absurd h4 (by simp)
            · rw [if_neg hge] at h4
              have hb2 := parse_index_ok hi2
              have hr : (⟨n1, n2 + 1⟩ : Rng) = r := Except.ok.inj h4
              subst hr
              constructor
              · show n1 < n2 + 1
                omega
              · exact hb2.2.2
      · rw [if_neg hdd] at h3
        exact absurd h3 (by simp)
    · exact absurd h2 (by simp)

theorem renderRange_mem {r : Rng} :
    ∀ c ∈ renderRange r, c.isDigit = true ∨ c = '-' := by
  intro c hc
  unfold renderRange at hc
  by_cases h : r.stop = r.start + 1
  · rw [if_pos h] at hc
    exact Or.inl (natToDigits_mem _ c hc)
  · rw [if_neg h] at hc
    rcases List.mem_append.mp hc with hc | hc
    · exact Or.inl (natToDigits_mem _ c hc)
    · rcases List.mem_cons.mp hc with hc | hc
      · exact Or.inr hc
      · exact Or.inl (natToDigits_mem _ c hc)

theorem renderRange_not_mem_comma (r : Rng) : ',' ∉ renderRange r := by
  intro hm
  rcases renderRange_mem ',' hm with h | h
  · exact absurd h (by decide)
  · exact absurd h (by decide)

theorem splitOnChar_joinCommas {toks : List (List Char)}
    (hc : ∀ u ∈ toks, ',' ∉ u) (hne : toks ≠ []) :
    splitOnChar ',' (joinCommas toks) = toks := by
  induction toks with
  | nil => exact absurd rfl hne
  | cons t ts ih =>
    cases ts with
    | nil =>
      show splitOnChar ',' t = [t]
      exact splitOnChar_not_mem (hc t (List.mem_cons_self t []))
    | cons t2 ts2 =>
      show splitOnChar ',' (t ++ ',' :: joinCommas (t2 :: ts2)) = t :: t2 :: ts2
      rw [splitOnChar_append _ (hc t (List.mem_cons_self t _))]
      rw [ih (fun u hu => hc u (List.mem_cons_of_mem _ hu)) (by simp)]

theorem renderRange_parses {r : Rng} (h1 : r.start < r.stop)
    (h2 : r.stop ≤ usizeMax) :
    parse_position_token (renderRange r) = .ok r := by
  obtain ⟨s, e⟩ := r
  simp only at h1 h2
  rw [renderRange]
  by_cases h : e = s + 1
  · rw [if_pos h]
    have hd := isDigits_natToDigits (s + 1)
    have hval := digitsToNat_natToDigits (s + 1)
    rw [token_single_ok hd (by omega) (by omega), hval]
    have he : s + 1 - 1 = s := by omega
    rw [he, h]
  · rw [if_neg h]
    have hd1 := isDigits_natToDigits (s + 1)
    have hd2 := isDigits_natToDigits e
    have hval1 := digitsToNat_natToDigits (s + 1)
    have hval2 := digitsToNat_natToDigits e
    rw [token_hyphen_ok hd1 hd2 (by omega) (by omega) (by omega), hval1, hval2]
    have he : s + 1 - 1 = s := by omega
    rw [he]

/-! ### Inversion of `splitOnChar` -/

theorem splitOnChar_eq_one {c : Char} {t u : List Char}
    (h : splitOnChar c t = [u]) : t = u ∧ c ∉ t := by
  induction t generalizing u with
  | nil =>
    have : ([] : List Char) = u := by
      have := List.head_eq_of_cons_eq h.symm
      exact this.symm
    exact ⟨this, by simp⟩
  | cons x xs ih =>
    rw [splitOnChar] at h
    cases hs : splitOnChar c xs with
    | nil => exact absurd hs (splitOnChar_ne_nil c xs)
    | cons v vs =>
      rw [hs] at h
      have h' : (if x = c then [] :: v :: vs else (x :: v) :: vs) = [u] := h
      by_cases hx : x = c
      · rw [if_pos hx] at h'
        exact absurd (List.tail_eq_of_cons_eq h') (by simp)
      · rw [if_neg hx] at h'
        have h1 : x :: v = u := List.head_eq_of_cons_eq h'
        have h2 : vs = [] := List.tail_eq_of_cons_eq h'
        subst h2
        obtain ⟨hxs, hmem⟩ := ih hs
        constructor
        · rw [← h1, hxs]
        · intro hm
          rcases List.mem_cons.mp hm with hm | hm
          · exact hx hm.symm
          · exact hmem hm

theorem splitOnChar_eq_two {c : Char} {t d1 d2 : List Char}
    (h : splitOnChar c t = [d1, d2]) : t = d1 ++ c :: d2 := by
  induction t generalizing d1 with
  | nil =>
    exact absurd (List.tail_eq_of_cons_eq h) (by simp)
  | cons x xs ih =>
    rw [splitOnChar] at h
    cases hs : splitOnChar c xs with
    | nil => exact absurd hs (splitOnChar_ne_nil c xs)
    | cons v vs =>
      rw [hs] at h
      have h' : (if x = c then [] :: v :: vs else (x :: v) :: vs) = [d1, d2] := h
      by_cases hx : x = c
      · rw [if_pos hx] at h'
        have h1 : ([] : List Char) = d1 := List.head_eq_of_cons_eq h'
        have h2 : v :: vs = [d2] := List.tail_eq_of_cons_eq h'
        obtain ⟨hxs, _⟩ := splitOnChar_eq_one (h2 ▸ hs)
        subst hx
        rw [← h1, hxs, List.nil_append]
      · rw [if_neg hx] at h'
        have h1 : x :: v = d1 := List.head_eq_of_cons_eq h'
        have h2 : vs = [d2] := List.tail_eq_of_cons_eq h'
        subst h2
        have := ih hs
        rw [← h1, List.cons_append, ← this]

theorem parse_position_render {s : List Char} {pl : List Rng}
    (h : parse_position s = .ok pl) :
    parse_position (renderPositionList pl) = .ok pl := by
  rw [parse_position] at h
  have hf := collectResults_ok_forall₂ h
  have hvalid : ∀ r ∈ pl, r.start < r.stop ∧ r.stop ≤ usizeMax := by
    clear h
    generalize splitOnChar ',' s = ts at hf
    induction hf with
    | nil => intro r hr; exact absurd hr (List.not_mem_nil r)
    | cons hu hrest ih =>
      intro r hr
      rcases List.mem_cons.mp hr with he | hm
      · subst he
        exact token_ok_valid hu
      · exact ih r hm
  have hne : pl ≠ [] := by
    intro he
    subst he
    have hlen := List.Forall₂.length_eq hf
    cases hse : splitOnChar ',' s with
    | nil => exact splitOnChar_ne_nil ',' s hse
    | cons a as => rw [hse] at hlen; simp at hlen
  have hcm : ∀ u ∈ pl.map renderRange, ',' ∉ u := by
    intro u hu
    obtain ⟨r, hr, hru⟩ := List.mem_map.mp hu
    exact hru ▸ renderRange_not_mem_comma r
  have hmapne : pl.map renderRange ≠ [] := by
    intro he
    exact hne (List.map_eq_nil_iff.mp he)
  rw [parse_position, renderPositionList, splitOnChar_joinCommas hcm hmapne]
  apply collectResults_of_forall₂
  rw [List.forall₂_map_left_iff, List.forall₂_same]
  intro r hr
  exact renderRange_parses (hvalid r hr).1 (hvalid r hr).2

/-! ## Claims -/

/-- C1 (amended): for every all-digit token whose value `n` satisfies
`1 ≤ n ≤ usizeMax`, `parse_position` yields exactly the zero-based
half-open range `[n-1, n)`; and for every hyphenated token `n1-n2` whose
halves are digit strings with `1 ≤ n1 < n2 ≤ usizeMax`, it yields
exactly `[n1-1, n2)`. (The bound `usizeMax` is forced by the
counterexample `c1_counterexample`: the source parses indices as
`NonZeroUsize`, so a digit token whose value exceeds `usize::MAX` is
rejected.) -/
theorem c1_parse_positive_tokens :
    (∀ t : List Char, isDigits t = true → 1 ≤ digitsToNat t →
      digitsToNat t ≤ usizeMax →
      parse_position t = .ok [⟨digitsToNat t - 1, digitsToNat t⟩]) ∧
    (∀ t1 t2 : List Char, isDigits t1 = true → isDigits t2 = true →
      1 ≤ digitsToNat t1 → digitsToNat t1 < digitsToNat t2 →
      digitsToNat t2 ≤ usizeMax →
      parse_position (t1 ++ '-' :: t2)
        = .ok [⟨digitsToNat t1 - 1, digitsToNat t2⟩]) := by
  constructor
  · intro t hd h1 h2
    rw [parse_position_one_token (isDigits_not_mem_comma hd),
      token_single_ok hd h1 h2]
  · intro t1 t2 hd1 hd2 h1 hlt h2
    rw [parse_position_one_token (comma_not_mem_hyphen_token (isDigits_isNd hd1) (isDigits_isNd hd2)),
      token_hyphen_ok hd1 hd2 h1 hlt h2]

/-- C1 witness: the amended claim evaluated at the concrete tokens
`"007"` (leading zeros, value 7) and `"19-20"`. -/
theorem c1_parse_positive_tokens_witness :
    parse_position "007".data = .ok [⟨6, 7⟩] ∧
    parse_position "19-20".data = .ok [⟨18, 20⟩] := by
  constructor
  · have h := c1_parse_positive_tokens.1 "007".data (by decide) (by decide)
      (by decide)
    rw [show digitsToNat "007".data = 7 from by decide] at h
    exact h
  · have h := c1_parse_positive_tokens.2 "19".data "20".data (by decide)
      (by decide) (by decide) (by decide) (by decide)
    rw [show digitsToNat "19".data = 19 from by decide,
      show digitsToNat "20".data = 20 from by decide,
      show ("19".data ++ '-' :: "20".data) = "19-20".data from by decide] at h
    exact h

/-- C1 counterexample: the claim as stated fails for the all-digit token
`"18446744073709551616"`, which denotes the positive integer `2^64`
(`> usize::MAX`): instead of the range `[2^64 - 1, 2^64)`, parsing
fails with an `illegalValue` error, because the source parses the index
with `str::parse::<NonZeroUsize>`. -/
theorem c1_counterexample :
    isDigits "18446744073709551616".data = true ∧
    digitsToNat "18446744073709551616".data = 2 ^ 64 ∧
    1 ≤ digitsToNat "18446744073709551616".data ∧
    parse_position "18446744073709551616".data
      ≠ .ok [⟨2 ^ 64 - 1, 2 ^ 64⟩] ∧
    parse_position "18446744073709551616".data
      = .error (.illegalValue "18446744073709551616".data) := by
  refine ⟨by decide, by decide, by decide, ?_, by decide⟩
  decide

/-- C2: byte extraction selects, for each range in list order, exactly
the contiguous slice of the line's UTF-8 bytes at offsets
`[start, stop)` clipped to the line (ascending within the range,
out-of-bounds offsets skipped), and lossily decodes the collected
bytes; on `"ábc"` (`á` is two bytes) range `[0,1)` yields one
replacement character and `[0,2)` yields `"á"` intact. -/
theorem c2_extract_bytes_spec :
    (∀ (line : List Char) (position_list : List Rng),
      extract_bytes_from_line line position_list
        = String.mk (utf8Lossy (position_list.flatMap
            (fun r => ((utf8Encode line).drop r.start).take (r.stop - r.start))))) ∧
    extract_bytes_from_line "ábc".data [⟨0, 1⟩] = "�" ∧
    extract_bytes_from_line "ábc".data [⟨0, 2⟩] = "á" ∧
    extract_bytes_from_line "ábc".data [⟨0, 3⟩] = "áb" := by
  refine ⟨?_, by decide, by decide, by decide⟩
  intro line pl
  show String.mk (utf8Lossy (pl.flatMap
    (fun r => (rangeIndices r).filterMap (fun i => (utf8Encode line).get? i)))) = _
  have hsel : ∀ r : Rng,
      (rangeIndices r).filterMap (fun i => (utf8Encode line).get? i)
        = ((utf8Encode line).drop r.start).take (r.stop - r.start) := by
    intro r
    rw [rangeIndices]
    exact filterMap_get_range _ _ _
  simp only [hsel]

/-- C3: field extraction outputs, for each range in list order, the
record's fields at every index of `[start, stop)` that exists in the
record (the contiguous clipped slice, in ascending index order; indices
beyond the record are skipped silently, overlapping ranges emit a field
once per covering range); on `["Captain","Sham","12345"]`, ranges
`[0,1), [2,3)` yield `["Captain","12345"]` and ranges `[1,2), [0,1)`
yield `["Sham","Captain"]`. -/
theorem c3_extract_fields_spec :
    (∀ (record : List String) (position_list : List Rng),
      extract_fields_from_record record position_list
        = position_list.flatMap
            (fun r => (record.drop r.start).take (r.stop - r.start))) ∧
    extract_fields_from_record ["Captain", "Sham", "12345"] [⟨0, 1⟩, ⟨2, 3⟩]
      = ["Captain", "12345"] ∧
    extract_fields_from_record ["Captain", "Sham", "12345"] [⟨1, 2⟩, ⟨0, 1⟩]
      = ["Sham", "Captain"] ∧
    extract_fields_from_record ["Captain", "Sham", "12345"] [⟨0, 1⟩, ⟨3, 4⟩]
      = ["Captain"] := by
  refine ⟨?_, by decide, by decide, by decide⟩
  intro record pl
  show pl.flatMap (fun r => (rangeIndices r).filterMap (fun i => record.get? i)) = _
  have hsel : ∀ r : Rng,
      (rangeIndices r).filterMap (fun i => record.get? i)
        = (record.drop r.start).take (r.stop - r.start) := by
    intro r
    rw [rangeIndices]
    exact filterMap_get_range _ _ _
  simp only [hsel]

/-- C4: character extraction selects Unicode codepoints (never split
bytes) at the listed codepoint indices — for each range in list order
the contiguous clipped slice of the line's character sequence — so on
`"ábc"` range `[0,1)` yields the full character `"á"` and ranges
`[0,1), [1,2), [4,5)` yield `"áb"` with the out-of-bounds range
silently dropped. -/
theorem c4_extract_chars_spec :
    (∀ (line : List Char) (position_list : List Rng),
      extract_chars_from_line line position_list
        = String.mk (position_list.flatMap
            (fun r => (line.drop r.start).take (r.stop - r.start)))) ∧
    extract_chars_from_line "ábc".data [⟨0, 1⟩] = "á" ∧
    extract_chars_from_line "ábc".data [⟨0, 1⟩, ⟨1, 2⟩, ⟨4, 5⟩] = "áb" ∧
    extract_chars_from_line "ábc".data [⟨2, 3⟩, ⟨1, 2⟩] = "cb" := by
  refine ⟨?_, by decide, by decide, by decide⟩
  intro line pl
  show String.mk (pl.flatMap
    (fun r => (rangeIndices r).filterMap (fun i => line.get? i))) = _
  have hsel : ∀ r : Rng,
      (rangeIndices r).filterMap (fun i => line.get? i)
        = (line.drop r.start).take (r.stop - r.start) := by
    intro r
    rw [rangeIndices]
    exact filterMap_get_range _ _ _
  simp only [hsel]

/-- C5 (amended): a token matching neither grammar (not an all-digit
token under the regexes' Unicode `\d`, and not decomposable as
digit-string, hyphen, digit-string) is rejected with an `illegalValue`
error carrying the exact token; zero is rejected as a bare index and
as either half of a hyphenated range, with the error carrying the zero
token itself — provided, for a zero second half, that the first half
is a valid in-range positive integer, since halves are parsed left to
right and the first half's own error wins otherwise (see
`c5_counterexample`); a grammar-matching token or half consisting of
non-ASCII Unicode decimal digits is likewise rejected by the
ASCII-only integer parser, with the error quoting that token or half;
and the `illegalValue` message quotes the offending token verbatim in
double quotes. -/
theorem c5_illegal_tokens :
    (∀ t : List Char, ',' ∉ t → isNdDigits t = false →
      (∀ d1 d2 : List Char, t = d1 ++ '-' :: d2 →
        isNdDigits d1 = false ∨ isNdDigits d2 = false) →
      parse_position t = .error (.illegalValue t)) ∧
    (∀ t : List Char, isDigits t = true → digitsToNat t = 0 →
      parse_position t = .error (.illegalValue t)) ∧
    (∀ t1 t2 : List Char, isDigits t1 = true → isDigits t2 = true →
      digitsToNat t1 = 0 →
      parse_position (t1 ++ '-' :: t2) = .error (.illegalValue t1)) ∧
    (∀ t1 t2 : List Char, isDigits t1 = true → isDigits t2 = true →
      1 ≤ digitsToNat t1 → digitsToNat t1 ≤ usizeMax → digitsToNat t2 = 0 →
      parse_position (t1 ++ '-' :: t2) = .error (.illegalValue t2)) ∧
    (∀ t : List Char, isNdDigits t = true → isDigits t = false →
      parse_position t = .error (.illegalValue t)) ∧
    (∀ t1 t2 : List Char, isNdDigits t1 = true → isNdDigits t2 = true →
      isDigits t1 = false →
      parse_position (t1 ++ '-' :: t2) = .error (.illegalValue t1)) ∧
    (∀ t1 t2 : List Char, isDigits t1 = true → isNdDigits t2 = true →
      1 ≤ digitsToNat t1 → digitsToNat t1 ≤ usizeMax → isDigits t2 = false →
      parse_position (t1 ++ '-' :: t2) = .error (.illegalValue t2)) ∧
    (∀ token : List Char, errorMessage (.illegalValue token)
      = "illegal list value: \"".data ++ token ++ "\"".data) := by
  refine ⟨?_, ?_, ?_, ?_, ?_, ?_, ?_, fun token => rfl⟩
  · intro t h1 h2 h3
    have hh : ∀ d1 d2 : List Char, splitOnChar '-' t = [d1, d2] →
        (isNdDigits d1 && isNdDigits d2) = false := by
      intro d1 d2 hsp
      rcases h3 d1 d2 (splitOnChar_eq_two hsp) with hf | hf
      · rw [hf, Bool.false_and]
      · rw [hf, Bool.and_false]
    rw [parse_position_one_token h1, token_no_grammar h2 hh]
  · intro t hd h0
    rw [parse_position_one_token (isDigits_not_mem_comma hd),
      token_digits_err hd (Or.inl h0)]
  · intro t1 t2 hd1 hd2 h0
    rw [parse_position_one_token
        (comma_not_mem_hyphen_token (isDigits_isNd hd1) (isDigits_isNd hd2)),
      token_hyphen_zero1 hd1 hd2 h0]
  · intro t1 t2 hd1 hd2 h1 hm h0
    rw [parse_position_one_token
        (comma_not_mem_hyphen_token (isDigits_isNd hd1) (isDigits_isNd hd2)),
      token_hyphen_zero2 hd1 hd2 h1 hm h0]
  · intro t hnd ha
    rw [parse_position_one_token (isNdDigits_not_mem_comma hnd),
      token_nd_not_ascii hnd ha]
  · intro t1 t2 h1 h2 ha
    rw [parse_position_one_token (comma_not_mem_hyphen_token h1 h2),
      token_hyphen_not_ascii1 h1 h2 ha]
  · intro t1 t2 h1 h2 hv1 hm1 ha
    rw [parse_position_one_token
        (comma_not_mem_hyphen_token (isDigits_isNd h1) h2),
      token_hyphen_not_ascii2 h1 h2 hv1 hm1 ha]

/-- C5 witness: the claim evaluated at the concrete tokens `"+1"`
(matches neither grammar), `"0"`, `"0-1"` and `"1-0"` (zero as a bare
index and as each half), `"٣"` and `"٣-٤"` and `"1-٠"` (Arabic-Indic
digits: the Unicode regexes match but the ASCII integer parser rejects,
quoting the failing token or half), plus the quoted message for
`"+1"`. -/
theorem c5_illegal_tokens_witness :
    parse_position "+1".data = .error (.illegalValue "+1".data) ∧
    parse_position "0".data = .error (.illegalValue "0".data) ∧
    parse_position "0-1".data = .error (.illegalValue "0".data) ∧
    parse_position "1-0".data = .error (.illegalValue "0".data) ∧
    parse_position "٣".data = .error (.illegalValue "٣".data) ∧
    parse_position "٣-٤".data = .error (.illegalValue "٣".data) ∧
    parse_position "1-٠".data = .error (.illegalValue "٠".data) ∧
    errorMessage (.illegalValue "+1".data) = "illegal list value: \"+1\"".data := by
  refine ⟨?_, ?_, ?_, ?_, ?_, ?_, ?_, ?_⟩
  · exact c5_illegal_tokens.1 "+1".data (by decide) (by decide)
      (fun d1 d2 he => by
        have hm : '-' ∈ d1 ++ '-' :: d2 := by simp
        rw [← he] at hm
        exact absurd hm (by decide))
  · exact c5_illegal_tokens.2.1 "0".data (by decide) (by decide)
  · have h := c5_illegal_tokens.2.2.1 "0".data "1".data (by decide) (by decide)
      (by decide)
    rw [show ("0".data ++ '-' :: "1".data) = "0-1".data from by decide] at h
    exact h
  · have h := c5_illegal_tokens.2.2.2.1 "1".data "0".data (by decide) (by decide)
      (by decide) (by decide) (by decide)
    rw [show ("1".data ++ '-' :: "0".data) = "1-0".data from by decide] at h
    exact h
  · exact c5_illegal_tokens.2.2.2.2.1 "٣".data (by decide) (by decide)
  · have h := c5_illegal_tokens.2.2.2.2.2.1 "٣".data "٤".data (by decide)
      (by decide) (by decide)
    rw [show ("٣".data ++ '-' :: "٤".data) = "٣-٤".data from by decide] at h
    exact h
  · have h := c5_illegal_tokens.2.2.2.2.2.2.1 "1".data "٠".data (by decide)
      (by decide) (by decide) (by decide) (by decide)
    rw [show ("1".data ++ '-' :: "٠".data) = "1-٠".data from by decide] at h
    exact h
  · exact c5_illegal_tokens.2.2.2.2.2.2.2 "+1".data

/-- C6: a hyphenated token whose halves are valid positive integers with
`n1 ≥ n2` fails with a `rangeOrder` error carrying both bounds in
one-based form (equal bounds included); `"1-1"` reports `(1,1)` and
`"2-1"` reports `(2,1)`; the message renders both one-based bounds. -/
theorem c6_range_order :
    (∀ t1 t2 : List Char, isDigits t1 = true → isDigits t2 = true →
      1 ≤ digitsToNat t2 → digitsToNat t2 ≤ digitsToNat t1 →
      digitsToNat t1 ≤ usizeMax →
      parse_position (t1 ++ '-' :: t2)
        = .error (.rangeOrder (digitsToNat t1) (digitsToNat t2))) ∧
    parse_position "1-1".data = .error (.rangeOrder 1 1) ∧
    parse_position "2-1".data = .error (.rangeOrder 2 1) ∧
    (∀ low high : Nat, errorMessage (.rangeOrder low high)
      = "First number in range (".data ++ natToDigits low
        ++ ") must be lower than second number (".data ++ natToDigits high
        ++ ")".data) := by
  refine ⟨?_, by decide, by decide, fun low high => rfl⟩
  intro t1 t2 hd1 hd2 h2 hge h1
  rw [parse_position_one_token (comma_not_mem_hyphen_token (isDigits_isNd hd1) (isDigits_isNd hd2)),
    token_hyphen_order hd1 hd2 h2 hge h1]

/-- C6 witness: the universally quantified part evaluated at `"3-2"`. -/
theorem c6_range_order_witness :
    parse_position "3-2".data = .error (.rangeOrder 3 2) := by
  have h := c6_range_order.1 "3".data "2".data (by decide) (by decide)
    (by decide) (by decide) (by decide)
  rw [show digitsToNat "3".data = 3 from by decide,
    show digitsToNat "2".data = 2 from by decide,
    show ("3".data ++ '-' :: "2".data) = "3-2".data from by decide] at h
  exact h

/-- C7: parsing a comma-separated specification is fail-fast — if the
tokens split into a prefix of valid tokens followed by an invalid
token, the whole parse returns exactly that first invalid token's
error (and, the result being an `Except`, no partial list). -/
theorem c7_fail_fast :
    ∀ (s : List Char) (pre : List (List Char)) (t : List Char)
      (post : List (List Char)) (e : CutError),
      splitOnChar ',' s = pre ++ t :: post →
      (∀ u ∈ pre, ∃ r, parse_position_token u = .ok r) →
      parse_position_token t = .error e →
      parse_position s = .error e := by
  intro s pre t post e hs hok he
  rw [parse_position, hs]
  exact collectResults_error t post hok he

/-- C7 witness: in `"1,a,2"` the first invalid token is `"a"`, and the
whole parse reports exactly the error for `"a"`. -/
theorem c7_fail_fast_witness :
    parse_position "1,a,2".data = .error (.illegalValue "a".data) := by
  refine c7_fail_fast "1,a,2".data ["1".data] "a".data ["2".data]
    (.illegalValue "a".data) (by decide) ?_ (by decide)
  intro u hu
  rw [List.mem_singleton] at hu
  subst hu
  exact ⟨⟨0, 1⟩, by decide⟩

/-- C8: a successful parse yields one range per comma-separated token,
pairing tokens and ranges positionally in insertion order (no
de-duplication, merging or sorting), and `"15,19-20"` parses to
`[[14,15), [18,20)]` in exactly that order. -/
theorem c8_order_preserved :
    (∀ (s : List Char) (rs : List Rng), parse_position s = .ok rs →
      List.Forall₂ (fun t r => parse_position_token t = .ok r)
        (splitOnChar ',' s) rs) ∧
    parse_position "15,19-20".data = .ok [⟨14, 15⟩, ⟨18, 20⟩] :=
  ⟨fun _ _ h => collectResults_ok_forall₂ h, by decide⟩

/-- C8 witness: the positional pairing evaluated on `"1,7,3-5"`. -/
theorem c8_order_preserved_witness :
    List.Forall₂ (fun t r => parse_position_token t = .ok r)
      (splitOnChar ',' "1,7,3-5".data) [⟨0, 1⟩, ⟨6, 7⟩, ⟨2, 5⟩] :=
  c8_order_preserved.1 "1,7,3-5".data _ (by decide)

/-- C9: re-parsing the canonical one-based re-rendering of any
successfully parsed PositionList (each range `[start, stop)` written as
the one-based span `start+1 .. stop`) reproduces exactly the same
ranges. -/
theorem c9_reparse_canonical_render :
    ∀ (s : List Char) (pl : List Rng), parse_position s = .ok pl →
      parse_position (renderPositionList pl) = .ok pl :=
  fun _ _ h => parse_position_render h

/-- C9 witness: the PositionList of `"1,7,3-5"` re-renders and re-parses
to itself. -/
theorem c9_reparse_canonical_render_witness :
    parse_position (renderPositionList [⟨0, 1⟩, ⟨6, 7⟩, ⟨2, 5⟩])
      = .ok [⟨0, 1⟩, ⟨6, 7⟩, ⟨2, 5⟩] :=
  c9_reparse_canonical_render "1,7,3-5".data _ (by decide)

/-- C10: an all-digit token whose value exceeds `usize::MAX` is rejected
with an `illegalValue` error quoting that token, even though the
grammar `[0-9]+` itself has no upper bound. -/
theorem c10_overflow_token :
    ∀ t : List Char, isDigits t = true → usizeMax < digitsToNat t →
      parse_position t = .error (.illegalValue t) := by
  intro t hd hover
  rw [parse_position_one_token (isDigits_not_mem_comma hd),
    token_digits_err hd (Or.inr hover)]

/-- C10 witness: the token `"18446744073709551616"` (value `2^64`,
which exceeds `usize::MAX = 2^64 - 1`) is rejected quoting itself. -/
theorem c10_overflow_token_witness :
    parse_position "18446744073709551616".data
      = .error (.illegalValue "18446744073709551616".data) :=
  c10_overflow_token "18446744073709551616".data (by decide) (by decide)

/-- C5 counterexample: in the token `"18446744073709551616-0"` zero is
used as the second half of a hyphenated range, yet the error does not
identify the zero token `"0"`: the first half is parsed first and its
own failure (value exceeds `usize::MAX`) is reported instead. -/
theorem c5_counterexample :
    digitsToNat "0".data = 0 ∧
    parse_position "18446744073709551616-0".data
      = .error (.illegalValue "18446744073709551616".data) ∧
    parse_position "18446744073709551616-0".data
      ≠ .error (.illegalValue "0".data) := by
  refine ⟨by decide, by decide, by decide⟩
